import Mathlib

/-!
# Verification of the Sia `encoding` package

Shallow embedding of the reflection-based binary codec from
`src/api/blockexplorer.go` (package `encoding`): `Encoder.encode`,
`Decoder.decode`, `Decoder.Read`, `Decoder.Decode`, `Marshal`, `MarshalAll`
and `Unmarshal`.  Go values of the supported kinds are modelled by the
inductive `SiaVal`, Go types by `SiaType`; bytes are `Nat` (kept `< 256`
where it matters); the decoder's byte counter and remaining input form
`DecState`.  Panics raised during decoding are modelled as `DErr` values
threaded through the state, and the top-level `Decode` converts them to the
error strings produced by the `recover` handler in the source.
-/

namespace Encoding

/-- `maxDecodeLen` from the source: 10 MB total-decode ceiling. -/
def maxDecodeLen : Nat := 10 * 1024 * 1024

/-- `maxSliceLen` from the source: 4 MB per-sequence ceiling. -/
def maxSliceLen : Nat := 4 * 1024 * 1024

/-- Little-endian byte decomposition: `toLE w u` is the `w` low bytes of `u`. -/
def toLE : Nat → Nat → List Nat
  | 0, _ => []
  | w + 1, u => u % 256 :: toLE w (u / 256)

/-- Little-endian byte recomposition, inverse of `toLE` on in-range input. -/
def fromLE : List Nat → Nat
  | [] => 0
  | b :: bs => b + 256 * fromLE bs

/-- Modelled from the spec: `EncUint64` (called by `Encoder.encode` but not
under `src/`) emits an unsigned integer as exactly 8 little-endian bytes. -/
def encUint64 (u : Nat) : List Nat := toLE 8 u

/-- Modelled from the spec: `EncInt64` emits a signed integer as the 8
little-endian bytes of its 64-bit two's-complement representation. -/
def encInt64 (i : Int) : List Nat := encUint64 (i % (2 ^ 64 : Int)).toNat

/-- Modelled from the spec: `DecUint64` reads 8 little-endian bytes back as
an unsigned integer. -/
def decUint64 (bs : List Nat) : Nat := fromLE bs

/-- Modelled from the spec: `DecInt64` reads 8 little-endian bytes back as a
signed 64-bit integer (two's complement). -/
def decInt64 (bs : List Nat) : Int :=
  let u := fromLE bs
  if u < 2 ^ 63 then (u : Int) else (u : Int) - 2 ^ 64

/-- Go values of the kinds the codec supports (`Encoder.encode`'s switch):
booleans, signed/unsigned integers, strings, byte slices and arrays,
generic slices and arrays, structs, pointers, and custom `SiaMarshaler`
values (whose self-produced blob is the `data` field).  Slices carry their
Go nil-ness (`isNil`), which is invisible to the encoder but distinguishes
Go values. -/
inductive SiaVal : Type where
  | vBool (b : Bool)
  | vInt (i : Int)
  | vUint (u : Nat)
  | vStr (s : List Nat)
  | vByteSlice (isNil : Bool) (bs : List Nat)
  | vByteArr (bs : List Nat)
  | vSlice (isNil : Bool) (elems : List SiaVal)
  | vArr (elems : List SiaVal)
  | vStruct (fields : List SiaVal)
  | vPtr (p : Option SiaVal)
  | vCustom (data : List Nat)

/-- Go types driving `Decoder.decode`'s reflection switch.  `tCustom`
models a type implementing `SiaUnmarshaler`: `sz`/`al` are its Go size and
alignment (used only by the slice-length sanity check) and `fails` says on
which blobs its `UnmarshalSia` panics. -/
inductive SiaType : Type where
  | tBool
  | tInt
  | tUint
  | tStr
  | tByteSlice
  | tByteArr (n : Nat)
  | tSlice (elem : SiaType)
  | tArr (n : Nat) (elem : SiaType)
  | tStruct (fields : List SiaType)
  | tPtr (elem : SiaType)
  | tCustom (sz al : Nat) (fails : List Nat → Bool)

/-- Round `o` up to the next multiple of `a` (Go struct field alignment). -/
def roundUp (o a : Nat) : Nat := if a = 0 then o else (o + a - 1) / a * a

mutual

/-- Go alignment of a type, as `reflect` reports it on a 64-bit platform:
scalars and headers align to their word size, byte arrays to 1, arrays to
their element, structs to the maximum field alignment. -/
def goAlign : SiaType → Nat
  | .tBool => 1
  | .tInt => 8
  | .tUint => 8
  | .tStr => 8
  | .tByteSlice => 8
  | .tByteArr _ => 1
  | .tSlice _ => 8
  | .tArr _ t => goAlign t
  | .tStruct ts => goAlignMax ts
  | .tPtr _ => 8
  | .tCustom _ al _ => al

/-- Maximum alignment over a struct's fields (1 when there are none). -/
def goAlignMax : List SiaType → Nat
  | [] => 1
  | t :: ts => max (goAlign t) (goAlignMax ts)

end

mutual

/-- Go size of a type, `reflect.Type.Size()` on a 64-bit platform: bool 1,
integers 8, string header 16, slice header 24, pointer 8, `[n]T` is
`n * size T`, and structs use the aligned field layout rounded up to the
struct alignment.  Used by `Decoder.decode`'s slice-length sanity check. -/
def goSize : SiaType → Nat
  | .tBool => 1
  | .tInt => 8
  | .tUint => 8
  | .tStr => 16
  | .tByteSlice => 24
  | .tByteArr n => n
  | .tSlice _ => 24
  | .tArr n t => n * goSize t
  | .tStruct ts => roundUp (goOffset 0 ts) (goAlignMax ts)
  | .tPtr _ => 8
  | .tCustom sz _ _ => sz

/-- End offset of a struct's fields laid out in order with their alignment. -/
def goOffset : Nat → List SiaType → Nat
  | o, [] => o
  | o, t :: ts => goOffset (roundUp o (goAlign t) + goSize t) ts

end

mutual

/-- The Go zero value of each type: false, 0, empty string, `nil` slices,
zero-filled byte arrays, arrays/structs of zero values, `nil` pointer.
This is the state of a freshly allocated decode target. -/
def zeroVal : SiaType → SiaVal
  | .tBool => .vBool false
  | .tInt => .vInt 0
  | .tUint => .vUint 0
  | .tStr => .vStr []
  | .tByteSlice => .vByteSlice true []
  | .tByteArr n => .vByteArr (List.replicate n 0)
  | .tSlice _ => .vSlice true []
  | .tArr n t => .vArr (List.replicate n (zeroVal t))
  | .tStruct ts => .vStruct (zeroVals ts)
  | .tPtr _ => .vPtr none
  | .tCustom _ _ _ => .vCustom []

/-- Zero values of a list of field types. -/
def zeroVals : List SiaType → List SiaVal
  | [] => []
  | t :: ts => zeroVal t :: zeroVals ts

end

mutual

/-- `Encoder.encode` from the source, with the output stream replaced by the
byte list written (a `bytes.Buffer` sink never fails): `SiaMarshaler`
values are length-prefixed blobs; pointers write a presence byte and, when
non-nil, the pointee; booleans one byte; integers 8 little-endian bytes;
strings and byte slices a length prefix plus raw bytes; byte arrays raw
bytes; slices a length prefix plus the elements in order; arrays and
structs just their elements/fields in order. -/
def encode : SiaVal → List Nat
  | .vCustom data => encUint64 data.length ++ data
  | .vPtr none => [0]
  | .vPtr (some w) => 1 :: encode w
  | .vBool b => [if b then 1 else 0]
  | .vInt i => encInt64 i
  | .vUint u => encUint64 u
  | .vStr s => encUint64 s.length ++ s
  | .vByteSlice _ bs => encUint64 bs.length ++ bs
  | .vByteArr bs => bs
  | .vSlice _ es => encUint64 es.length ++ encodeList es
  | .vArr es => encodeList es
  | .vStruct fs => encodeList fs

/-- Sequential encoding of elements/fields, concatenated in order. -/
def encodeList : List SiaVal → List Nat
  | [] => []
  | v :: vs => encode v ++ encodeList vs

end

/-- `Marshal` from the source: encode into a fresh in-memory buffer. -/
def Marshal (v : SiaVal) : List Nat := encode v

/-- `MarshalAll` from the source: encode each input in turn into one shared
buffer and return the buffer's contents. -/
def MarshalAll (vs : List SiaVal) : List Nat :=
  vs.foldl (fun acc v => acc ++ encode v) []

/-- State of a `Decoder` over an in-memory stream (`bytes.Reader`): the
remaining input and the running byte counter `d.n`, which mirrors the total
number of bytes handed out by the underlying reader during the current
top-level `Decode` call. -/
structure DecState where
  input : List Nat
  n : Nat

/-- The panics `Decoder.decode` can raise, which `Decoder.Decode` recovers
into errors: `io.EOF` / `io.ErrUnexpectedEOF` from a truncated stream, a
malformed boolean byte, the slice-length sanity check, the total-size
ceiling in `Decoder.Read`, an over-ceiling length prefix from `ReadPrefix`,
and a failing `UnmarshalSia`. -/
inductive DErr : Type where
  | eof
  | unexpectedEOF
  | badBool
  | sliceTooLarge
  | sizeLimit
  | lenExceedsMax (len : Nat)
  | customFail
deriving DecidableEq, Repr

/-- Result of one `Decoder.decode` step: the target's value afterwards
(partially written when a panic interrupted the step), the stream state,
and the panic if one was raised. -/
structure DOut where
  val : SiaVal
  st : DecState
  err : Option DErr

/-- `Decoder.readN` through `Decoder.Read`: read `k` bytes into a private
buffer.  The underlying `bytes.Reader` hands over `min k |input|` bytes,
`Decoder.Read` then adds them to `d.n` and panics if the ceiling is now
exceeded, and `io.ReadFull` turns a short read into `io.EOF` (nothing
read) or `io.ErrUnexpectedEOF`.  On error the buffer is discarded, so the
decode target is untouched. -/
def readBuf (s : DecState) (k : Nat) : Except (DErr × DecState) (List Nat × DecState) :=
  let m := min k s.input.length
  let n' := s.n + m
  let s' : DecState := ⟨s.input.drop k, n'⟩
  if maxDecodeLen < n' then .error (.sizeLimit, s')
  else if m < k then .error ((if m = 0 then .eof else .unexpectedEOF), s')
  else .ok (s.input.take k, s')

/-- `io.ReadFull(d, b)` directly into a `k`-byte region of the decode
target whose current contents are `cur` (the byte-slice and byte-array
cases of `Decoder.decode`): the bytes handed over by the reader land in
the target even when the size ceiling or a truncation error follows. -/
def fillBytes (cur : List Nat) (k : Nat) (s : DecState) :
    List Nat × DecState × Option DErr :=
  let m := min k s.input.length
  let n' := s.n + m
  let filled := s.input.take k ++ cur.drop m
  let s' : DecState := ⟨s.input.drop k, n'⟩
  if maxDecodeLen < n' then (filled, s', some .sizeLimit)
  else if m < k then (filled, s', some (if m = 0 then .eof else .unexpectedEOF))
  else (filled, s', none)

/-- Modelled from the spec: `ReadPrefix` (called by `Decoder.readPrefix`
but not under `src/`) reads an 8-byte little-endian length through the
counting reader, rejects it when it exceeds `maxSliceLen` *before*
allocating, then reads exactly that many bytes into a private buffer. -/
def readLenPrefixed (s : DecState) : Except (DErr × DecState) (List Nat × DecState) :=
  match readBuf s 8 with
  | .error e => .error e
  | .ok (pre, s1) =>
    let len := decUint64 pre
    if maxSliceLen < len then .error (.lenExceedsMax len, s1)
    else readBuf s1 len

/-- Decode a run of targets in sequence with the same element decoder
(the slice/array loop of `Decoder.decode`): each element is decoded in
place; a panic stops the loop, leaving the later targets untouched. -/
def decodeSeqWith (dec : SiaVal → DecState → DOut) :
    List SiaVal → DecState → List SiaVal × DecState × Option DErr
  | [], s => ([], s, none)
  | c :: cs, s =>
    let o := dec c s
    match o.err with
    | some e => (o.val :: cs, o.st, some e)
    | none =>
      let r := decodeSeqWith dec cs o.st
      (o.val :: r.1, r.2.1, r.2.2)

mutual

/-- `Decoder.decode` from the source: mutate the target `cur` of type `t`
from the stream.  `SiaUnmarshaler` targets get a length-prefixed blob;
pointers read a presence boolean and allocate the pointee if needed;
booleans reject bytes above 1; integers read 8 bytes; strings read a
length-prefixed buffer; slices read a length, sanity-check
`len > 1<<31-1 || len*elemSize > maxSliceLen` before allocating, then fill
bytes directly or decode elements in place; byte arrays fill their bytes
directly; structs decode each field in declaration order. -/
def decode : SiaType → SiaVal → DecState → DOut
  | .tCustom _ _ fails, cur, s =>
    match readLenPrefixed s with
    | .error (e, s') => ⟨cur, s', some e⟩
    | .ok (blob, s') =>
      if fails blob then ⟨cur, s', some .customFail⟩ else ⟨.vCustom blob, s', none⟩
  | .tPtr t, cur, s =>
    match readBuf s 1 with
    | .error (e, s') => ⟨cur, s', some e⟩
    | .ok (bs, s') =>
      let b := bs.headD 0
      if 1 < b then ⟨cur, s', some .badBool⟩
      else if b = 1 then
        let ecur := match cur with
          | .vPtr (some w) => w
          | _ => zeroVal t
        let o := decode t ecur s'
        ⟨.vPtr (some o.val), o.st, o.err⟩
      else ⟨cur, s', none⟩
  | .tBool, cur, s =>
    match readBuf s 1 with
    | .error (e, s') => ⟨cur, s', some e⟩
    | .ok (bs, s') =>
      let b := bs.headD 0
      if 1 < b then ⟨cur, s', some .badBool⟩
      else ⟨.vBool (b = 1), s', none⟩
  | .tInt, cur, s =>
    match readBuf s 8 with
    | .error (e, s') => ⟨cur, s', some e⟩
    | .ok (bs, s') => ⟨.vInt (decInt64 bs), s', none⟩
  | .tUint, cur, s =>
    match readBuf s 8 with
    | .error (e, s') => ⟨cur, s', some e⟩
    | .ok (bs, s') => ⟨.vUint (decUint64 bs), s', none⟩
  | .tStr, cur, s =>
    match readLenPrefixed s with
    | .error (e, s') => ⟨cur, s', some e⟩
    | .ok (bs, s') => ⟨.vStr bs, s', none⟩
  | .tByteSlice, cur, s =>
    match readBuf s 8 with
    | .error (e, s') => ⟨cur, s', some e⟩
    | .ok (bs, s') =>
      let len := decUint64 bs
      if 2 ^ 31 - 1 < len ∨ maxSliceLen < len * 1 % 2 ^ 64 then
        ⟨cur, s', some .sliceTooLarge⟩
      else
        let r := fillBytes (List.replicate len 0) len s'
        ⟨.vByteSlice false r.1, r.2.1, r.2.2⟩
  | .tByteArr k, cur, s =>
    let cbs := match cur with
      | .vByteArr bs => bs
      | _ => List.replicate k 0
    let r := fillBytes cbs k s
    ⟨.vByteArr r.1, r.2.1, r.2.2⟩
  | .tSlice t, cur, s =>
    match readBuf s 8 with
    | .error (e, s') => ⟨cur, s', some e⟩
    | .ok (bs, s') =>
      let len := decUint64 bs
      if 2 ^ 31 - 1 < len ∨ maxSliceLen < len * goSize t % 2 ^ 64 then
        ⟨cur, s', some .sliceTooLarge⟩
      else
        let r := decodeSeqWith (fun c s2 => decode t c s2)
          (List.replicate len (zeroVal t)) s'
        ⟨.vSlice false r.1, r.2.1, r.2.2⟩
  | .tArr k t, cur, s =>
    let es := match cur with
      | .vArr es => es
      | _ => List.replicate k (zeroVal t)
    let r := decodeSeqWith (fun c s2 => decode t c s2) es s
    ⟨.vArr r.1, r.2.1, r.2.2⟩
  | .tStruct ts, cur, s =>
    let fs := match cur with
      | .vStruct fs => fs
      | _ => zeroVals ts
    let r := decodeFields ts fs s
    ⟨.vStruct r.1, r.2.1, r.2.2⟩

/-- The struct-field loop of `Decoder.decode`: decode each field in place,
in declaration order, stopping at the first panic. -/
def decodeFields : List SiaType → List SiaVal → DecState →
    List SiaVal × DecState × Option DErr
  | [], fs, s => (fs, s, none)
  | _ :: _, [], s => ([], s, none)
  | t :: ts, f :: fs, s =>
    let o := decode t f s
    match o.err with
    | some e => (o.val :: fs, o.st, some e)
    | none =>
      let r := decodeFields ts fs o.st
      (o.val :: r.1, r.2.1, r.2.2)

end

/-- Go type strings of the modelled types, standing in for
`reflect.Type.String()` in `Decoder.Decode`'s error message (named struct
and custom types print their Go names, which the model abbreviates). -/
def typeName : SiaType → String
  | .tBool => "bool"
  | .tInt => "int64"
  | .tUint => "uint64"
  | .tStr => "string"
  | .tByteSlice => "[]uint8"
  | .tByteArr n => "[" ++ toString n ++ "]uint8"
  | .tSlice t => "[]" ++ typeName t
  | .tArr n t => "[" ++ toString n ++ "]" ++ typeName t
  | .tStruct _ => "struct"
  | .tPtr t => "*" ++ typeName t
  | .tCustom _ _ _ => "custom"

/-- The message of each recovered panic, as formatted into the error by
`Decoder.Decode`. -/
def errMsg : DErr → String
  | .eof => "EOF"
  | .unexpectedEOF => "unexpected EOF"
  | .badBool => "boolean value was not 0 or 1"
  | .sliceTooLarge => "slice is too large"
  | .sizeLimit => "encoded type exceeds size limit"
  | .lenExceedsMax len =>
    "length " ++ toString len ++ " exceeds maxLen of " ++ toString maxSliceLen
  | .customFail => "UnmarshalSia failed"

/-- `errBadPointer` from the source. -/
def errBadPointer : String := "cannot decode into invalid pointer"

/-- The decode target handed to `Decoder.Decode`: a nil pointer, a
non-pointer, or a valid pointer to a zeroed value of some type. -/
inductive GoTarget : Type where
  | nilPtr
  | nonPtr
  | ptrTo (t : SiaType)

/-- The body of `Decoder.Decode` on a valid pointer target: reset the byte
counter, decode into the freshly zeroed pointee, and convert any panic
into an error naming the target type.  Returns the pointee's final value
(even after a failure, since `recover` does not roll it back) and the
error, if any. -/
def DecodeInto (t : SiaType) (input : List Nat) : SiaVal × Option String :=
  let o := decode t (zeroVal t) ⟨input, 0⟩
  match o.err with
  | none => (o.val, none)
  | some e => (o.val, some ("could not decode type " ++ typeName t ++ ": " ++ errMsg e))

/-- `Decoder.Decode` from the source: reject nil or non-pointer targets
with `errBadPointer`, otherwise decode into the pointee. -/
def Decode (tgt : GoTarget) (input : List Nat) : Option SiaVal × Option String :=
  match tgt with
  | .nilPtr => (none, some errBadPointer)
  | .nonPtr => (none, some errBadPointer)
  | .ptrTo t =>
    let r := DecodeInto t input
    (some r.1, r.2)

/-- `Unmarshal` from the source: decode `b` through a fresh `Decoder` over
a `bytes.Reader`. -/
def Unmarshal (b : List Nat) (tgt : GoTarget) : Option SiaVal × Option String :=
  Decode tgt b

mutual

/-- `fits v t` says the Go value `v` inhabits type `t` and respects the
decode ceilings: integers are in 64-bit range, bytes are genuine bytes,
length-prefixed parts fit under `maxSliceLen`, slice element counts pass
the decoder's sanity check for `t`'s element size, nil slices are empty,
and custom blobs are ones their `UnmarshalSia` accepts. -/
def fits : SiaVal → SiaType → Bool
  | .vBool _, .tBool => true
  | .vInt i, .tInt => decide (-(2 : Int) ^ 63 ≤ i) && decide (i < 2 ^ 63)
  | .vUint u, .tUint => decide (u < 2 ^ 64)
  | .vStr s, .tStr => decide (s.length ≤ maxSliceLen) && s.all (· < 256)
  | .vByteSlice isNil bs, .tByteSlice =>
    (!isNil || bs.isEmpty) && decide (bs.length ≤ maxSliceLen) && bs.all (· < 256)
  | .vByteArr bs, .tByteArr k => decide (bs.length = k) && bs.all (· < 256)
  | .vSlice isNil es, .tSlice t =>
    (!isNil || es.isEmpty) && decide (es.length ≤ 2 ^ 31 - 1) &&
      decide (es.length * goSize t ≤ maxSliceLen) && fitsList es t
  | .vArr es, .tArr k t => decide (es.length = k) && fitsList es t
  | .vStruct fs, .tStruct ts => fitsFields fs ts
  | .vPtr none, .tPtr _ => true
  | .vPtr (some w), .tPtr t => fits w t
  | .vCustom data, .tCustom _ _ fails =>
    !fails data && decide (data.length ≤ maxSliceLen) && data.all (· < 256)
  | _, _ => false

/-- All elements of a homogeneous sequence fit the element type. -/
def fitsList : List SiaVal → SiaType → Bool
  | [], _ => true
  | v :: vs, t => fits v t && fitsList vs t

/-- Struct fields fit the field types pairwise, with equal arity. -/
def fitsFields : List SiaVal → List SiaType → Bool
  | [], [] => true
  | v :: vs, t :: ts => fits v t && fitsFields vs ts
  | _, _ => false

end

mutual

/-- The value `Decoder.decode` reconstructs from `v`'s own encoding: the
same value with every slice marked non-nil (`reflect.MakeSlice` always
allocates, so decoded slices are never nil). -/
def canon : SiaVal → SiaVal
  | .vByteSlice _ bs => .vByteSlice false bs
  | .vSlice _ es => .vSlice false (canonList es)
  | .vArr es => .vArr (canonList es)
  | .vStruct fs => .vStruct (canonList fs)
  | .vPtr (some w) => .vPtr (some (canon w))
  | .vPtr none => .vPtr none
  | .vBool b => .vBool b
  | .vInt i => .vInt i
  | .vUint u => .vUint u
  | .vStr s => .vStr s
  | .vByteArr bs => .vByteArr bs
  | .vCustom data => .vCustom data

/-- `canon` applied to each element. -/
def canonList : List SiaVal → List SiaVal
  | [] => []
  | v :: vs => canon v :: canonList vs

end

mutual

/-- `noNil v` says no slice anywhere inside `v` is nil, i.e. `v` is already
in the decoder's canonical form. -/
def noNil : SiaVal → Bool
  | .vByteSlice isNil _ => !isNil
  | .vSlice isNil es => !isNil && noNilList es
  | .vArr es => noNilList es
  | .vStruct fs => noNilList fs
  | .vPtr (some w) => noNil w
  | .vPtr none => true
  | .vBool _ => true
  | .vInt _ => true
  | .vUint _ => true
  | .vStr _ => true
  | .vByteArr _ => true
  | .vCustom _ => true

/-- `noNil` over a list of values. -/
def noNilList : List SiaVal → Bool
  | [] => true
  | v :: vs => noNil v && noNilList vs

end

/-! ## Byte-level lemmas -/

/-- `toLE` always produces exactly `w` bytes. -/
theorem toLE_length (w u : Nat) : (toLE w u).length = w := by
  induction w generalizing u with
  | zero => rfl
  | succ w ih => simp [toLE, ih]

/-- An encoded unsigned integer is exactly 8 bytes. -/
theorem encUint64_length (u : Nat) : (encUint64 u).length = 8 :=
  toLE_length 8 u

/-- An encoded signed integer is exactly 8 bytes. -/
theorem encInt64_length (i : Int) : (encInt64 i).length = 8 :=
  encUint64_length _

/-- Recomposing the `w`-byte little-endian decomposition recovers the value
modulo `256 ^ w`. -/
theorem fromLE_toLE (w u : Nat) : fromLE (toLE w u) = u % 256 ^ w := by
  induction w generalizing u with
  | zero => simp [toLE, fromLE, pow_zero, Nat.mod_one]
  | succ w ih =>
    have h : u % 256 ^ (w + 1) = u % 256 + 256 * (u / 256 % 256 ^ w) := by
      have h1 : u % (256 * 256 ^ w) % 256 = u % 256 := by
        rw [Nat.mod_mod_of_dvd u (dvd_mul_right 256 (256 ^ w))]
      have h2 : u % (256 * 256 ^ w) / 256 = u / 256 % 256 ^ w := by
        rw [Nat.mod_mul_right_div_self]
      calc u % 256 ^ (w + 1) = u % (256 * 256 ^ w) := by rw [pow_succ, mul_comm]
        _ = 256 * (u % (256 * 256 ^ w) / 256) + u % (256 * 256 ^ w) % 256 :=
          (Nat.div_add_mod _ 256).symm
        _ = u % 256 + 256 * (u / 256 % 256 ^ w) := by rw [h1, h2]; ring
    simp only [toLE, fromLE, ih, h]

/-- Decoding the encoding of an in-range unsigned integer recovers it. -/
theorem decUint64_encUint64 (u : Nat) (h : u < 2 ^ 64) :
    decUint64 (encUint64 u) = u := by
  have h8 : (256 : Nat) ^ 8 = 2 ^ 64 := by norm_num
  simp only [decUint64, encUint64, fromLE_toLE]
  rw [h8]
  exact Nat.mod_eq_of_lt h

/-- Decoding the encoding of an in-range signed integer recovers it. -/
theorem decInt64_encInt64 (i : Int) (h1 : -(2 : Int) ^ 63 ≤ i) (h2 : i < 2 ^ 63) :
    decInt64 (encInt64 i) = i := by
  have hlt : i % (2 : Int) ^ 64 < 2 ^ 64 := Int.emod_lt_of_pos i (by norm_num)
  have hge : 0 ≤ i % (2 : Int) ^ 64 := Int.emod_nonneg i (by norm_num)
  have hself : i % (2 : Int) ^ 64 = if 0 ≤ i then i else i + 2 ^ 64 := by
    split
    · exact Int.emod_eq_of_lt (by assumption) (by omega)
    · have : (i + 2 ^ 64) % (2 : Int) ^ 64 = i % (2 : Int) ^ 64 := by
        simp [Int.add_mul_emod_self_left]
      rw [← this]
      exact Int.emod_eq_of_lt (by omega) (by omega)
  have hn : ((i % (2 : Int) ^ 64).toNat : Int) = i % (2 : Int) ^ 64 :=
    Int.toNat_of_nonneg hge
  have hnlt : (i % (2 : Int) ^ 64).toNat < 2 ^ 64 := by omega
  simp only [decInt64, encInt64, decUint64]
  have hfe : fromLE (encUint64 (i % (2 : Int) ^ 64).toNat) = (i % (2 : Int) ^ 64).toNat :=
    decUint64_encUint64 _ hnlt
  rw [hfe]
  split
  · rename_i hlt63
    have : ((i % (2 : Int) ^ 64).toNat : Int) < 2 ^ 63 := by exact_mod_cast hlt63
    omega
  · rename_i hge63
    have : ¬ ((i % (2 : Int) ^ 64).toNat : Int) < 2 ^ 63 := by exact_mod_cast hge63
    omega

/-! ## Stream-step lemmas -/

/-- Reading exactly the `k` bytes sitting at the front of the stream
succeeds when the counter stays under the ceiling. -/
theorem readBuf_exact (b r : List Nat) (n0 : Nat) (hb : b.length = k)
    (hn : n0 + k ≤ maxDecodeLen) :
    readBuf ⟨b ++ r, n0⟩ k = .ok (b, ⟨r, n0 + k⟩) := by
  have hmin : min k (b ++ r).length = k := by
    simp [List.length_append, hb]
  have htake : (b ++ r).take k = b := by
    rw [← hb]; exact List.take_left b r
  have hdrop : (b ++ r).drop k = r := by
    rw [← hb]; exact List.drop_left b r
  simp only [readBuf, hmin, htake, hdrop]
  rw [if_neg (by omega), if_neg (by omega)]

/-- Filling a `k`-byte target region from a stream that has exactly `k`
bytes at the front succeeds and leaves precisely those bytes. -/
theorem fillBytes_exact (cur b r : List Nat) (n0 : Nat) (hb : b.length = k)
    (hcur : cur.length = k) (hn : n0 + k ≤ maxDecodeLen) :
    fillBytes cur k ⟨b ++ r, n0⟩ = (b, ⟨r, n0 + k⟩, none) := by
  have hmin : min k (b ++ r).length = k := by
    simp [List.length_append, hb]
  have htake : (b ++ r).take k = b := by
    rw [← hb]; exact List.take_left b r
  have hdrop : (b ++ r).drop k = r := by
    rw [← hb]; exact List.drop_left b r
  have hcurd : cur.drop k = [] := by
    apply List.drop_eq_nil_of_le; omega
  simp only [fillBytes, hmin, htake, hdrop, hcurd, List.append_nil]
  rw [if_neg (by omega), if_neg (by omega)]

/-- Reading a length-prefixed buffer whose declared length is within the
per-sequence ceiling succeeds and returns exactly the prefixed bytes. -/
theorem readLenPrefixed_exact (b r : List Nat) (n0 : Nat)
    (hlen : b.length ≤ maxSliceLen) (hn : n0 + 8 + b.length ≤ maxDecodeLen) :
    readLenPrefixed ⟨(encUint64 b.length ++ b) ++ r, n0⟩ =
      .ok (b, ⟨r, n0 + 8 + b.length⟩) := by
  have hlt : b.length < 2 ^ 64 := by
    have : maxSliceLen < 2 ^ 64 := by norm_num [maxSliceLen]
    omega
  rw [List.append_assoc]
  have h1 : readBuf ⟨encUint64 b.length ++ (b ++ r), n0⟩ 8 =
      .ok (encUint64 b.length, ⟨b ++ r, n0 + 8⟩) :=
    readBuf_exact _ _ _ (encUint64_length _) (by omega)
  simp only [readLenPrefixed, h1, decUint64_encUint64 _ hlt]
  rw [if_neg (by omega)]
  exact readBuf_exact _ _ _ rfl (by omega)

/-! ## Canonical values -/

mutual

/-- A value with no nil slices is its own canonical form. -/
theorem canon_of_noNil (v : SiaVal) (h : noNil v = true) : canon v = v := by
  cases v with
  | vByteSlice isNil bs =>
    simp only [noNil, Bool.not_eq_eq_eq_not, Bool.not_true] at h
    simp [canon, h]
  | vSlice isNil es =>
    simp only [noNil, Bool.and_eq_true, Bool.not_eq_eq_eq_not, Bool.not_true] at h
    simp [canon, h.1, canonList_of_noNilList es h.2]
  | vArr es =>
    simp only [noNil] at h
    simp [canon, canonList_of_noNilList es h]
  | vStruct fs =>
    simp only [noNil] at h
    simp [canon, canonList_of_noNilList fs h]
  | vPtr p =>
    cases p with
    | none => simp [canon]
    | some w =>
      simp only [noNil] at h
      simp [canon, canon_of_noNil w h]
  | vBool b => simp [canon]
  | vInt i => simp [canon]
  | vUint u => simp [canon]
  | vStr s => simp [canon]
  | vByteArr bs => simp [canon]
  | vCustom data => simp [canon]

/-- A list of values with no nil slices is its own canonical form. -/
theorem canonList_of_noNilList (vs : List SiaVal) (h : noNilList vs = true) :
    canonList vs = vs := by
  cases vs with
  | nil => simp [canonList]
  | cons v vs =>
    simp only [noNilList, Bool.and_eq_true] at h
    simp [canonList, canon_of_noNil v h.1, canonList_of_noNilList vs h.2]

end


/-! ## The decode/encode round trip -/

theorem maxSliceLen_le_pow31 : maxSliceLen ≤ 2 ^ 31 - 1 := by norm_num [maxSliceLen]

theorem maxSliceLen_lt_pow64 : maxSliceLen < 2 ^ 64 := by norm_num [maxSliceLen]

mutual

/-- Decoding a well-formed value's own encoding from the front of a stream
into a zeroed target succeeds, consumes exactly the encoding, and yields
the canonical form of the value. -/
theorem decode_encode (v : SiaVal) (t : SiaType) (rest : List Nat) (n0 : Nat)
    (hf : fits v t = true) (hn : n0 + (encode v).length ≤ maxDecodeLen) :
    decode t (zeroVal t) ⟨encode v ++ rest, n0⟩ =
      ⟨canon v, ⟨rest, n0 + (encode v).length⟩, none⟩ := by
  cases v with
  | vBool b =>
    cases t
    case tBool =>
      simp only [encode] at hn ⊢
      have h1 : readBuf ⟨[if b then 1 else 0] ++ rest, n0⟩ 1 =
          .ok ([if b then 1 else 0], ⟨rest, n0 + 1⟩) :=
        readBuf_exact _ _ _ (by cases b <;> rfl) (by cases b <;> simpa using hn)
      simp only [decode, h1]
      cases b <;> simp [canon]
    all_goals simp [fits] at hf
  | vInt i =>
    cases t
    case tInt =>
      simp only [fits, Bool.and_eq_true, decide_eq_true_eq] at hf
      simp only [encode] at hn ⊢
      rw [encInt64_length] at hn
      have h1 : readBuf ⟨encInt64 i ++ rest, n0⟩ 8 =
          .ok (encInt64 i, ⟨rest, n0 + 8⟩) :=
        readBuf_exact _ _ _ (encInt64_length i) (by omega)
      rw [encInt64_length]
      simp only [decode, h1]
      simp [canon, decInt64_encInt64 i hf.1 hf.2]
    all_goals simp [fits] at hf
  | vUint u =>
    cases t
    case tUint =>
      simp only [fits, decide_eq_true_eq] at hf
      simp only [encode] at hn ⊢
      rw [encUint64_length] at hn
      have h1 : readBuf ⟨encUint64 u ++ rest, n0⟩ 8 =
          .ok (encUint64 u, ⟨rest, n0 + 8⟩) :=
        readBuf_exact _ _ _ (encUint64_length u) (by omega)
      rw [encUint64_length]
      simp only [decode, h1]
      simp [canon, decUint64_encUint64 u hf]
    all_goals simp [fits] at hf
  | vStr s =>
    cases t
    case tStr =>
      simp only [fits, Bool.and_eq_true, decide_eq_true_eq] at hf
      simp only [encode] at hn ⊢
      rw [List.length_append, encUint64_length] at hn
      have h1 : readLenPrefixed ⟨(encUint64 s.length ++ s) ++ rest, n0⟩ =
          .ok (s, ⟨rest, n0 + 8 + s.length⟩) :=
        readLenPrefixed_exact _ _ _ hf.1 (by omega)
      rw [List.length_append, encUint64_length, ← Nat.add_assoc]
      simp only [decode, h1]
      simp [canon]
    all_goals simp [fits] at hf
  | vByteSlice isNil bs =>
    cases t
    case tByteSlice =>
      simp only [fits, Bool.and_eq_true, decide_eq_true_eq] at hf
      obtain ⟨⟨-, hlen⟩, -⟩ := hf
      simp only [encode] at hn ⊢
      rw [List.length_append, encUint64_length] at hn
      rw [List.length_append, encUint64_length, ← Nat.add_assoc,
        List.append_assoc]
      have hlt : bs.length < 2 ^ 64 := by
        have := maxSliceLen_lt_pow64; omega
      have h1 : readBuf ⟨encUint64 bs.length ++ (bs ++ rest), n0⟩ 8 =
          .ok (encUint64 bs.length, ⟨bs ++ rest, n0 + 8⟩) :=
        readBuf_exact _ _ _ (encUint64_length _) (by omega)
      have h2 : fillBytes (List.replicate bs.length 0) bs.length
          ⟨bs ++ rest, n0 + 8⟩ = (bs, ⟨rest, n0 + 8 + bs.length⟩, none) :=
        fillBytes_exact _ _ _ _ rfl (List.length_replicate _ _) (by omega)
      simp only [decode, h1, decUint64_encUint64 _ hlt]
      rw [if_neg (by
        push_neg
        refine ⟨by have := maxSliceLen_le_pow31; omega, ?_⟩
        rw [Nat.mul_one, Nat.mod_eq_of_lt hlt]; omega)]
      simp only [h2]
      simp [canon]
    all_goals simp [fits] at hf
  | vByteArr bs =>
    cases t
    case tByteArr k =>
      simp only [fits, Bool.and_eq_true, decide_eq_true_eq] at hf
      obtain ⟨hk, -⟩ := hf
      subst hk
      simp only [encode] at hn ⊢
      have h2 : fillBytes (List.replicate bs.length 0) bs.length
          ⟨bs ++ rest, n0⟩ = (bs, ⟨rest, n0 + bs.length⟩, none) :=
        fillBytes_exact _ _ _ _ rfl (List.length_replicate _ _) (by omega)
      simp only [decode, zeroVal, h2]
      simp [canon]
    all_goals simp [fits] at hf
  | vSlice isNil es =>
    cases t
    case tSlice t =>
      simp only [fits, Bool.and_eq_true, decide_eq_true_eq] at hf
      obtain ⟨⟨⟨-, h31⟩, hsz⟩, hfl⟩ := hf
      simp only [encode] at hn ⊢
      rw [List.length_append, encUint64_length] at hn
      rw [List.length_append, encUint64_length, ← Nat.add_assoc,
        List.append_assoc]
      have hlt : es.length < 2 ^ 64 := by
        have := maxSliceLen_le_pow31; omega
      have h1 : readBuf ⟨encUint64 es.length ++ (encodeList es ++ rest), n0⟩ 8 =
          .ok (encUint64 es.length, ⟨encodeList es ++ rest, n0 + 8⟩) :=
        readBuf_exact _ _ _ (encUint64_length _) (by omega)
      have h2 := decode_encode_seq es t rest (n0 + 8) hfl (by omega)
      simp only [decode, h1, decUint64_encUint64 _ hlt]
      rw [if_neg (by
        push_neg
        refine ⟨by omega, ?_⟩
        rw [Nat.mod_eq_of_lt (by have := maxSliceLen_lt_pow64; omega)]
        omega)]
      simp only [h2]
      simp [canon]
    all_goals simp [fits] at hf
  | vArr es =>
    cases t
    case tArr k t =>
      simp only [fits, Bool.and_eq_true, decide_eq_true_eq] at hf
      obtain ⟨hk, hfl⟩ := hf
      subst hk
      simp only [encode] at hn ⊢
      have h2 := decode_encode_seq es t rest n0 hfl hn
      simp only [decode, zeroVal, h2]
      simp [canon]
    all_goals simp [fits] at hf
  | vStruct fs =>
    cases t
    case tStruct ts =>
      simp only [fits] at hf
      simp only [encode] at hn ⊢
      have h2 := decode_encode_fields fs ts rest n0 hf hn
      simp only [decode, zeroVal, h2]
      simp [canon]
    all_goals simp [fits] at hf
  | vPtr p =>
    cases p with
    | none =>
      cases t
      case tPtr t =>
        simp only [encode] at hn ⊢
        have h1 : readBuf ⟨[0] ++ rest, n0⟩ 1 = .ok ([0], ⟨rest, n0 + 1⟩) :=
          readBuf_exact _ _ _ rfl (by simpa using hn)
        simp only [decode, zeroVal, h1]
        simp [canon]
      all_goals simp [fits] at hf
    | some w =>
      cases t
      case tPtr t =>
        simp only [fits] at hf
        simp only [encode] at hn ⊢
        rw [List.length_cons] at hn
        rw [List.length_cons, show n0 + ((encode w).length + 1) =
          n0 + 1 + (encode w).length from by omega, List.cons_append]
        have h1 : readBuf ⟨1 :: (encode w ++ rest), n0⟩ 1 =
            .ok ([1], ⟨encode w ++ rest, n0 + 1⟩) :=
          readBuf_exact [1] _ _ rfl (by omega)
        have h2 := decode_encode w t rest (n0 + 1) hf (by omega)
        simp only [decode, zeroVal, h1, h2]
        simp [canon]
      all_goals simp [fits] at hf
  | vCustom data =>
    cases t
    case tCustom sz al fails =>
      simp only [fits, Bool.and_eq_true, decide_eq_true_eq,
        Bool.not_eq_true'] at hf
      obtain ⟨⟨hfail, hlen⟩, -⟩ := hf
      simp only [encode] at hn ⊢
      rw [List.length_append, encUint64_length] at hn
      rw [List.length_append, encUint64_length, ← Nat.add_assoc]
      have h1 : readLenPrefixed ⟨(encUint64 data.length ++ data) ++ rest, n0⟩ =
          .ok (data, ⟨rest, n0 + 8 + data.length⟩) :=
        readLenPrefixed_exact _ _ _ hlen (by omega)
      simp only [decode, h1, hfail]
      simp [canon]
    all_goals simp [fits] at hf

/-- Decoding the concatenated encodings of a list of well-formed elements
into freshly allocated zeroed slots yields their canonical forms. -/
theorem decode_encode_seq (vs : List SiaVal) (t : SiaType) (rest : List Nat)
    (n0 : Nat) (hf : fitsList vs t = true)
    (hn : n0 + (encodeList vs).length ≤ maxDecodeLen) :
    decodeSeqWith (fun c s2 => decode t c s2)
      (List.replicate vs.length (zeroVal t)) ⟨encodeList vs ++ rest, n0⟩ =
      (canonList vs, ⟨rest, n0 + (encodeList vs).length⟩, none) := by
  cases vs with
  | nil => simp [decodeSeqWith, encodeList, canonList]
  | cons v vs =>
    simp only [fitsList, Bool.and_eq_true] at hf
    simp only [encodeList] at hn ⊢
    rw [List.length_append] at hn
    rw [List.length_append, ← Nat.add_assoc, List.append_assoc]
    have h1 := decode_encode v t (encodeList vs ++ rest) n0 hf.1 (by omega)
    have h2 := decode_encode_seq vs t rest (n0 + (encode v).length) hf.2
      (by omega)
    simp only [List.length_cons, List.replicate_succ, decodeSeqWith, h1, h2]
    simp [canonList]

/-- Decoding the concatenated encodings of a struct's fields into the
zero values of the field types yields the canonical fields, in order. -/
theorem decode_encode_fields (vs : List SiaVal) (ts : List SiaType)
    (rest : List Nat) (n0 : Nat) (hf : fitsFields vs ts = true)
    (hn : n0 + (encodeList vs).length ≤ maxDecodeLen) :
    decodeFields ts (zeroVals ts) ⟨encodeList vs ++ rest, n0⟩ =
      (canonList vs, ⟨rest, n0 + (encodeList vs).length⟩, none) := by
  cases vs with
  | nil =>
    cases ts with
    | nil => simp [decodeFields, encodeList, canonList, zeroVals]
    | cons t ts => simp [fitsFields] at hf
  | cons v vs =>
    cases ts with
    | nil => simp [fitsFields] at hf
    | cons t ts =>
      simp only [fitsFields, Bool.and_eq_true] at hf
      simp only [encodeList] at hn ⊢
      rw [List.length_append] at hn
      rw [List.length_append, ← Nat.add_assoc, List.append_assoc]
      have h1 := decode_encode v t (encodeList vs ++ rest) n0 hf.1 (by omega)
      have h2 := decode_encode_fields vs ts rest (n0 + (encode v).length) hf.2
        (by omega)
      simp only [zeroVals, decodeFields, h1, h2]
      simp [canonList]

end


/-! ## Helper lemmas for the claim theorems -/

/-- Encoding a list of values into one buffer concatenates the encodings. -/
theorem encodeList_eq_flatten (vs : List SiaVal) :
    encodeList vs = (vs.map encode).flatten := by
  induction vs with
  | nil => simp [encodeList]
  | cons v vs ih => simp [encodeList, ih]

/-- Folding the encoder over a shared buffer appends the concatenation. -/
theorem marshalAll_foldl (vs : List SiaVal) (acc : List Nat) :
    vs.foldl (fun a v => a ++ encode v) acc = acc ++ (vs.map encode).flatten := by
  induction vs generalizing acc with
  | nil => simp
  | cons v vs ih => simp [List.foldl_cons, ih, List.append_assoc]


/-! ## Claim theorems -/

/-- C1 (counterexample): the round-trip law fails as stated on a nil byte
slice — `Unmarshal (Marshal v)` succeeds but yields the empty non-nil
slice, which is a different Go value than the nil slice `v`. -/
theorem c1_nil_slice_breaks_round_trip :
    Unmarshal (Marshal (.vByteSlice true [])) (.ptrTo .tByteSlice) =
      (some (.vByteSlice false []), none) ∧
    SiaVal.vByteSlice false [] ≠ SiaVal.vByteSlice true [] :=
  ⟨by rfl, by simp⟩

/-- C1 (amended): for every supported value containing no nil slices whose
encoding respects the decode ceilings (`fits` bounds each length-prefixed
part and the whole encoding is at most `maxDecodeLen`), decoding the bytes
produced by encoding `v` into a zeroed target of the same type succeeds
and reproduces `v` exactly. -/
theorem c1_round_trip (v : SiaVal) (t : SiaType) (hf : fits v t = true)
    (hnil : noNil v = true) (hlen : (Marshal v).length ≤ maxDecodeLen) :
    Unmarshal (Marshal v) (.ptrTo t) = (some v, none) := by
  have h := decode_encode v t [] 0 hf (by simpa [Marshal] using hlen)
  rw [List.append_nil] at h
  simp only [Unmarshal, Decode, DecodeInto, Marshal, h, canon_of_noNil v hnil]

/-- C1 (witness): the round trip at the concrete struct `{S: "bar", I: 3}`. -/
theorem c1_round_trip_witness :
    fits (.vStruct [.vStr [98, 97, 114], .vInt 3]) (.tStruct [.tStr, .tInt]) = true ∧
    noNil (.vStruct [.vStr [98, 97, 114], .vInt 3]) = true ∧
    (Marshal (.vStruct [.vStr [98, 97, 114], .vInt 3])).length ≤ maxDecodeLen ∧
    Unmarshal (Marshal (.vStruct [.vStr [98, 97, 114], .vInt 3]))
        (.ptrTo (.tStruct [.tStr, .tInt])) =
      (some (.vStruct [.vStr [98, 97, 114], .vInt 3]), none) :=
  ⟨by rfl, by rfl, by decide,
    c1_round_trip _ _ (by rfl) (by rfl) (by decide)⟩

/-- C9 (counterexample): as stated the claim fails on a nil slice — with
`v` the nil slice and empty suffix, `Unmarshal (Marshal v ++ s)` succeeds
but produces the empty non-nil slice, not `v`. -/
theorem c9_nil_slice_not_reproduced :
    Unmarshal (Marshal (.vSlice true []) ++ []) (.ptrTo (.tSlice .tBool)) =
      (some (.vSlice false []), none) ∧
    SiaVal.vSlice false [] ≠ SiaVal.vSlice true [] :=
  ⟨by rfl, by simp⟩

/-- C9 (amended): decoding does not require the input to be exactly
consumed — for every supported value `v` with no nil slices whose encoding
respects the decode ceilings, and every byte suffix `s`,
`Unmarshal (Marshal v ++ s)` still succeeds and reproduces `v`; trailing
bytes are silently ignored rather than reported as an error. -/
theorem c9_trailing_bytes_ignored (v : SiaVal) (t : SiaType) (s : List Nat)
    (hf : fits v t = true) (hnil : noNil v = true)
    (hlen : (Marshal v).length ≤ maxDecodeLen) :
    Unmarshal (Marshal v ++ s) (.ptrTo t) = (some v, none) := by
  have h := decode_encode v t s 0 hf (by simpa [Marshal] using hlen)
  simp only [Unmarshal, Decode, DecodeInto, Marshal, h, canon_of_noNil v hnil]

/-- C9 (witness): trailing garbage after an encoded integer is ignored. -/
theorem c9_trailing_bytes_ignored_witness :
    fits (.vUint 9) .tUint = true ∧ noNil (.vUint 9) = true ∧
    (Marshal (.vUint 9)).length ≤ maxDecodeLen ∧
    Unmarshal (Marshal (.vUint 9) ++ [1, 2, 3]) (.ptrTo .tUint) =
      (some (.vUint 9), none) :=
  ⟨by rfl, by rfl, by decide,
    c9_trailing_bytes_ignored _ _ [1, 2, 3] (by rfl) (by rfl) (by decide)⟩

/-- C10: a nil slice and an empty non-nil slice of the same type produce
the identical encoding — the 8-byte zero length prefix and nothing else —
and decoding that encoding always produces an empty non-nil slice, so a
nil slice does not survive a round trip as nil. -/
theorem c10_nil_empty_not_injective (t : SiaType) :
    Marshal (.vByteSlice true []) = Marshal (.vByteSlice false []) ∧
    Marshal (.vSlice true []) = Marshal (.vSlice false []) ∧
    Marshal (.vByteSlice true []) = encUint64 0 ∧
    DecodeInto .tByteSlice (encUint64 0) = (.vByteSlice false [], none) ∧
    DecodeInto (.tSlice t) (encUint64 0) = (.vSlice false [], none) := by
  refine ⟨rfl, rfl, rfl, by rfl, ?_⟩
  have h1 : readBuf ⟨encUint64 0, 0⟩ 8 = .ok (encUint64 0, ⟨[], 8⟩) := by
    simpa using readBuf_exact (encUint64 0) [] 0 (encUint64_length 0)
      (by norm_num [maxDecodeLen])
  have h0 : decUint64 (encUint64 0) = 0 := by rfl
  simp only [DecodeInto, decode, zeroVal, h1, h0]
  rw [if_neg (by push_neg; norm_num [maxSliceLen])]
  simp [decodeSeqWith]

/-- Decoding a byte array longer than the total ceiling from a stream with
enough bytes consumes the whole array — the counter ends at `k`, past the
ceiling — and only then aborts with the size-limit panic. -/
theorem decode_byteArr_sizeLimit (k : Nat) (st : List Nat)
    (hk : st.length = k) (hbig : maxDecodeLen < k) :
    decode (.tByteArr k) (zeroVal (.tByteArr k)) ⟨st, 0⟩ =
      ⟨.vByteArr (st.take k ++ (List.replicate k (0 : Nat)).drop k),
        ⟨st.drop k, k⟩, some .sizeLimit⟩ := by
  simp only [decode, zeroVal, fillBytes, hk, Nat.min_self, Nat.zero_add]
  rw [if_pos hbig]

/-- C2 (counterexample): the total decode ceiling is **not** checked before
the read — `Decoder.Read` first obtains the bytes from the underlying
reader and only then checks the updated counter.  Decoding a byte array
one byte longer than the ceiling from a sufficient stream hands all
10485761 bytes to the decoder (the final counter `st.n`, which mirrors
`d.n`, exceeds `maxDecodeLen`) before the size-limit panic fires. -/
theorem c2_total_ceiling_checked_after_read :
    (decode (.tByteArr 10485761) (zeroVal (.tByteArr 10485761))
        ⟨List.replicate 10485761 0, 0⟩).err = some .sizeLimit ∧
    (decode (.tByteArr 10485761) (zeroVal (.tByteArr 10485761))
        ⟨List.replicate 10485761 0, 0⟩).st.n = 10485761 ∧
    maxDecodeLen < 10485761 := by
  have h := decode_byteArr_sizeLimit 10485761 (List.replicate 10485761 0)
    (List.length_replicate 10485761 0) (by norm_num [maxDecodeLen])
  rw [h]
  exact ⟨rfl, rfl, by norm_num [maxDecodeLen]⟩

/-- C2 (amended): the per-sequence ceiling is checked before the
corresponding allocation — a slice-length prefix failing the sanity check
aborts the decode immediately after the 8 prefix bytes, consuming and
allocating nothing proportional to the declared length; the total decode
ceiling is instead checked directly after each read adds its bytes to the
running counter, so the decode aborts as soon as the counter exceeds the
ceiling (but only after the offending read). -/
theorem c2_ceiling_guards :
    (∀ (t : SiaType) (len : Nat) (cur : SiaVal) (rest : List Nat) (n0 : Nat),
      len < 2 ^ 64 →
      (2 ^ 31 - 1 < len ∨ maxSliceLen < len * goSize t % 2 ^ 64) →
      n0 + 8 ≤ maxDecodeLen →
      decode (.tSlice t) cur ⟨encUint64 len ++ rest, n0⟩ =
        ⟨cur, ⟨rest, n0 + 8⟩, some .sliceTooLarge⟩) ∧
    (∀ (s : DecState) (k : Nat) (s' : DecState),
      readBuf s k = .error (.sizeLimit, s') →
      maxDecodeLen < s'.n ∧ s'.n = s.n + min k s.input.length) := by
  constructor
  · intro t len cur rest n0 hlt hbig hn
    have h1 : readBuf ⟨encUint64 len ++ rest, n0⟩ 8 =
        .ok (encUint64 len, ⟨rest, n0 + 8⟩) :=
      readBuf_exact _ _ _ (encUint64_length len) hn
    simp only [decode, h1, decUint64_encUint64 len hlt]
    rw [if_pos hbig]
  · intro s k s' h
    simp only [readBuf] at h
    split at h
    · rename_i hc
      obtain ⟨-, h2⟩ := Prod.mk.injEq .. ▸ (Except.error.injEq .. ▸ h)
      exact ⟨h2 ▸ hc, by rw [← h2]⟩
    · split at h
      · obtain ⟨h1, -⟩ := Prod.mk.injEq .. ▸ (Except.error.injEq .. ▸ h)
        split at h1 <;> exact absurd h1 (by simp)
      · exact absurd h (by simp)

/-- C2 (witness): a declared slice length of `maxSliceLen + 1` booleans is
rejected right after its 8 prefix bytes, independent of the length. -/
theorem c2_ceiling_guards_witness :
    decode (.tSlice .tBool) (.vSlice true []) ⟨encUint64 4194305 ++ [], 0⟩ =
      ⟨.vSlice true [], ⟨[], 0 + 8⟩, some .sliceTooLarge⟩ :=
  c2_ceiling_guards.1 .tBool 4194305 (.vSlice true []) [] 0
    (by norm_num) (Or.inr (by norm_num [maxSliceLen, goSize]))
    (by norm_num [maxDecodeLen])

/-- C3: for every input byte stream and every decode target, `Decode`
returns an ordinary error value — `errBadPointer` for a nil or non-pointer
target, and otherwise either success or an error string naming the target
type with the recovered panic's message; no panic escapes the call (every
`DErr` raised inside `decode` is converted by the `recover` handler). -/
theorem c3_decode_reports_errors (input : List Nat) :
    Decode .nilPtr input = (none, some errBadPointer) ∧
    Decode .nonPtr input = (none, some errBadPointer) ∧
    ∀ t : SiaType,
      (∃ v, Decode (.ptrTo t) input = (some v, none)) ∨
      ∃ e : DErr, Decode (.ptrTo t) input =
        (some (decode t (zeroVal t) ⟨input, 0⟩).val,
          some ("could not decode type " ++ typeName t ++ ": " ++ errMsg e)) := by
  refine ⟨rfl, rfl, fun t => ?_⟩
  cases h : (decode t (zeroVal t) ⟨input, 0⟩).err with
  | none =>
    refine Or.inl ⟨(decode t (zeroVal t) ⟨input, 0⟩).val, ?_⟩
    simp [Decode, DecodeInto, h]
  | some e => exact Or.inr ⟨e, by simp [Decode, DecodeInto, h]⟩

/-- C4 (counterexample): decode failures are **not** all-or-nothing —
decoding the struct `{U uint64; B bool}` from a valid first field (`5`)
followed by a malformed boolean byte (`2`) returns an error, yet the
target's first field keeps the decoded value `5` instead of its initial
zero value. -/
theorem c4_failed_decode_leaves_partial_target :
    DecodeInto (.tStruct [.tUint, .tBool]) (encUint64 5 ++ [2]) =
      (.vStruct [.vUint 5, .vBool false],
        some "could not decode type struct: boolean value was not 0 or 1") ∧
    zeroVal (.tStruct [.tUint, .tBool]) = .vStruct [.vUint 0, .vBool false] ∧
    SiaVal.vStruct [.vUint 5, .vBool false] ≠
      SiaVal.vStruct [.vUint 0, .vBool false] :=
  ⟨by rfl, by rfl, by simp⟩

/-- C4 (amended): a failed decode reports an error but does not roll the
target back — components decoded before the failure keep their decoded
values.  Decoding `{U uint64; B bool}` from any valid 8-byte integer
followed by any malformed boolean byte errors while leaving the first
field populated with the decoded integer. -/
theorem c4_partial_population (u b : Nat) (hu : u < 2 ^ 64) (hb : 1 < b) :
    DecodeInto (.tStruct [.tUint, .tBool]) (encUint64 u ++ [b]) =
      (.vStruct [.vUint u, .vBool false],
        some "could not decode type struct: boolean value was not 0 or 1") := by
  have h1 : readBuf ⟨encUint64 u ++ [b], 0⟩ 8 =
      .ok (encUint64 u, ⟨[b], 0 + 8⟩) :=
    readBuf_exact _ _ _ (encUint64_length u) (by norm_num [maxDecodeLen])
  have h2 : readBuf ⟨[b], 0 + 8⟩ 1 = .ok ([b], ⟨[], 0 + 8 + 1⟩) := by
    simpa using readBuf_exact [b] [] (0 + 8) rfl (by norm_num [maxDecodeLen])
  simp only [DecodeInto, decode, zeroVal, zeroVals, decodeFields, h1, h2,
    decUint64_encUint64 u hu, List.headD_cons]
  rw [if_pos hb]
  rfl

/-- C4 (witness): the partial population at `u = 7`, `b = 3`. -/
theorem c4_partial_population_witness :
    DecodeInto (.tStruct [.tUint, .tBool]) (encUint64 7 ++ [3]) =
      (.vStruct [.vUint 7, .vBool false],
        some "could not decode type struct: boolean value was not 0 or 1") :=
  c4_partial_population 7 3 (by norm_num) (by norm_num)

/-- C5: decoding a single byte into a bool target yields `false` for
`0x00` and `true` for `0x01`, and any byte greater than 1 makes the decode
fail with the malformed-boolean error rather than succeed. -/
theorem c5_boolean_decoding :
    DecodeInto .tBool [0] = (.vBool false, none) ∧
    DecodeInto .tBool [1] = (.vBool true, none) ∧
    ∀ b : Nat, 2 ≤ b →
      DecodeInto .tBool [b] =
        (.vBool false,
          some "could not decode type bool: boolean value was not 0 or 1") := by
  refine ⟨by rfl, by rfl, fun b hb => ?_⟩
  have h1 : readBuf ⟨[b], 0⟩ 1 = .ok ([b], ⟨[], 0 + 1⟩) := by
    simpa using readBuf_exact [b] [] 0 rfl (by norm_num [maxDecodeLen])
  simp only [DecodeInto, decode, zeroVal, h1, List.headD_cons]
  rw [if_pos (by omega)]
  rfl

/-- C5 (witness): byte `0x02` is rejected as a malformed boolean. -/
theorem c5_boolean_decoding_witness :
    DecodeInto .tBool [2] =
      (.vBool false,
        some "could not decode type bool: boolean value was not 0 or 1") :=
  c5_boolean_decoding.2.2 2 (by norm_num)

/-- C6: `MarshalAll` over any list of values equals the concatenation of
the individual `Marshal` results in order; in particular
`MarshalAll [v1, v2] = Marshal v1 ++ Marshal v2`. -/
theorem c6_concatenation_law (v1 v2 : SiaVal) :
    MarshalAll [v1, v2] = Marshal v1 ++ Marshal v2 ∧
    ∀ vs : List SiaVal, MarshalAll vs = (vs.map Marshal).flatten := by
  constructor
  · simp [MarshalAll, Marshal, marshalAll_foldl]
  · intro vs
    show vs.foldl (fun a v => a ++ encode v) [] = (vs.map Marshal).flatten
    rw [marshalAll_foldl]
    rfl

/-- C7: a struct's encoding is the concatenation of its fields' encodings
in declaration order; for the two-field record `{S = "bar", I = 3}` this
is the length-prefixed string bytes immediately followed by the 8-byte
little-endian integer encoding. -/
theorem c7_struct_concatenation :
    (∀ fs : List SiaVal, Marshal (.vStruct fs) = (fs.map Marshal).flatten) ∧
    Marshal (.vStruct [.vStr [98, 97, 114], .vInt 3]) =
      Marshal (.vStr [98, 97, 114]) ++ Marshal (.vInt 3) ∧
    Marshal (.vStruct [.vStr [98, 97, 114], .vInt 3]) =
      [3, 0, 0, 0, 0, 0, 0, 0, 98, 97, 114, 3, 0, 0, 0, 0, 0, 0, 0] := by
  refine ⟨fun fs => ?_, by rfl, by rfl⟩
  show encode (.vStruct fs) = (fs.map Marshal).flatten
  rw [encode, encodeList_eq_flatten]
  rfl

/-- C8: a nil pointer encodes as the single byte `0x00`; a non-nil pointer
encodes as `0x01` followed by the encoding of the dereferenced value (for
the pointer to integer `3`: `[01]` then the 8 bytes of `3`); decoding
mirrors this, leaving the target pointer absent on a `0x00` presence byte
and populating it on `0x01`. -/
theorem c8_pointer_encoding :
    Marshal (.vPtr none) = [0] ∧
    (∀ w : SiaVal, Marshal (.vPtr (some w)) = 1 :: Marshal w) ∧
    Marshal (.vPtr (some (.vInt 3))) = [1, 3, 0, 0, 0, 0, 0, 0, 0] ∧
    (∀ t : SiaType, DecodeInto (.tPtr t) [0] = (.vPtr none, none)) ∧
    DecodeInto (.tPtr .tInt) [1, 3, 0, 0, 0, 0, 0, 0, 0] =
      (.vPtr (some (.vInt 3)), none) := by
  refine ⟨by rfl, fun w => by simp [Marshal, encode], by rfl, fun t => ?_, by rfl⟩
  have h1 : readBuf ⟨[0], 0⟩ 1 = .ok ([0], ⟨[], 0 + 1⟩) := by
    simpa using readBuf_exact [0] [] 0 rfl (by norm_num [maxDecodeLen])
  simp [DecodeInto, decode, zeroVal, h1]
